import Mathlib

/-!
Verification of the HiPACE++ slice-based plasma simulation engine against its
natural-language specification.

The development shallowly embeds the relevant C++ code in Lean 4:
real-valued quantities (amrex::Real) are modelled as exact rationals,
fallible operations return Except, and assertion failures
(AMREX_ALWAYS_ASSERT) are modelled as error values carrying the reported
diagnostic data.  Sources:
- EnforceBC                 (GetAndSetPosition.H)
- CheckDomainBounds         (Fields.H)
- assert_map                (Fields.H)
- Fields::shift             (Fields.H)
- Parser::fillWithParser    (Parser.H), float / int / string overloads
- Hipace predictor-corrector defaults (Hipace.H)
- AdaptiveTimeStep defaults (AdaptiveTimeStep.H)
-/

/-! ## Numeric helpers: std::fmod on exact rationals -/

/-- Truncation toward zero, as used by std::fmod. -/
def truncQ (q : ℚ) : Int := if 0 ≤ q then Int.floor q else Int.ceil q

/-- Exact model of std::fmod: fmod a b = a - b * trunc (a / b).
For b > 0 the result has the sign of a and magnitude below b. -/
def fmod (a b : ℚ) : ℚ := a - b * ((truncQ (a / b) : Int) : ℚ)

/-- One wrap step as written in EnforceBC: take fmod, then add the period
if the result is negative.  Used with period 2*len for reflection and
len for periodic wrapping. -/
def wrapLen (a L : ℚ) : ℚ :=
  let m := fmod a L
  if m < 0 then m + L else m

theorem truncQ_of_nonneg {q : ℚ} (h : 0 ≤ q) : truncQ q = Int.floor q := by
  simp [truncQ, h]

theorem truncQ_of_neg {q : ℚ} (h : q < 0) : truncQ q = Int.ceil q := by
  simp [truncQ, not_le.mpr h]

theorem fmod_eq_mul_fract {a b : ℚ} (hb : 0 < b) (ha : 0 ≤ a) :
    fmod a b = b * Int.fract (a / b) := by
  have hq : 0 ≤ a / b := div_nonneg ha (le_of_lt hb)
  rw [fmod, truncQ_of_nonneg hq, Int.fract]
  field_simp

theorem fmod_nonneg_of_nonneg {a b : ℚ} (hb : 0 < b) (ha : 0 ≤ a) :
    0 ≤ fmod a b := by
  rw [fmod_eq_mul_fract hb ha]
  exact mul_nonneg (le_of_lt hb) (Int.fract_nonneg _)

theorem fmod_lt_of_nonneg {a b : ℚ} (hb : 0 < b) (ha : 0 ≤ a) :
    fmod a b < b := by
  rw [fmod_eq_mul_fract hb ha]
  calc b * Int.fract (a / b) < b * 1 :=
        (mul_lt_mul_left hb).mpr (Int.fract_lt_one _)
    _ = b := mul_one b

theorem fmod_eq_neg_mul_fract {a b : ℚ} (hb : 0 < b) (ha : a < 0) :
    fmod a b = -(b * Int.fract (-a / b)) := by
  have hq : a / b < 0 := div_neg_of_neg_of_pos ha hb
  have hceil : Int.ceil (a / b) = -Int.floor (-(a / b)) := by
    rw [← Int.ceil_neg, neg_neg]
  rw [fmod, truncQ_of_neg hq, hceil, Int.fract]
  push_cast
  field_simp
  ring

theorem fmod_neg_bounds {a b : ℚ} (hb : 0 < b) (ha : a < 0) :
    -b < fmod a b ∧ fmod a b ≤ 0 := by
  rw [fmod_eq_neg_mul_fract hb ha]
  constructor
  · have h1 : b * Int.fract (-a / b) < b * 1 :=
      (mul_lt_mul_left hb).mpr (Int.fract_lt_one _)
    rw [mul_one] at h1
    linarith
  · have h0 : 0 ≤ b * Int.fract (-a / b) :=
      mul_nonneg (le_of_lt hb) (Int.fract_nonneg _)
    linarith

theorem fmod_sub_int {a b : ℚ} : ∃ k : Int, fmod a b = a + b * (k : ℚ) :=
  ⟨-(truncQ (a / b)), by rw [fmod]; push_cast; ring⟩

/-- The wrap step lands in the half-open interval: 0 ≤ wrapLen a L < L. -/
theorem wrapLen_bounds {a L : ℚ} (hL : 0 < L) :
    0 ≤ wrapLen a L ∧ wrapLen a L < L := by
  rcases le_or_lt 0 a with ha | ha
  · have h0 := fmod_nonneg_of_nonneg hL ha
    have h1 := fmod_lt_of_nonneg hL ha
    simp only [wrapLen, not_lt.mpr h0, if_neg (not_lt.mpr h0)]
    exact ⟨h0, h1⟩
  · obtain ⟨hlo, hhi⟩ := fmod_neg_bounds hL ha
    by_cases hm : fmod a L < 0
    · simp only [wrapLen, if_pos hm]
      constructor <;> linarith
    · simp only [wrapLen, if_neg hm]
      exact ⟨le_of_not_lt hm, lt_of_le_of_lt hhi hL⟩

/-- The wrap step changes its argument by an integer multiple of the period. -/
theorem wrapLen_sub_int (a L : ℚ) : ∃ k : Int, wrapLen a L = a + L * (k : ℚ) := by
  obtain ⟨k, hk⟩ := fmod_sub_int (a := a) (b := L)
  by_cases hm : fmod a L < 0
  · exact ⟨k + 1, by simp only [wrapLen, if_pos hm]; rw [hk]; push_cast; ring⟩
  · exact ⟨k, by simp only [wrapLen, if_neg hm]; exact hk⟩

/-! ## Particle boundary enforcement: EnforceBC (GetAndSetPosition.H)
and CheckDomainBounds (Fields.H) -/

/-- ParticleBoundary::type enumeration from Hipace.H. -/
inductive ParticleBoundary
  | Reflecting
  | Periodic
  | Absorbing
deriving DecidableEq

/-- Mutable particle state touched by EnforceBC::operator(): transverse
position x, y; transverse momentum ux, uy; the weight component
rdata(w_index), and the validity flag of the particle id. -/
structure PState where
  x : ℚ
  y : ℚ
  ux : ℚ
  uy : ℚ
  w : ℚ
  idValid : Bool
deriving DecidableEq

/-- Captured state of the EnforceBC functor: the boundary policy and the
transverse particle bounding box (m_plo, m_phi). -/
structure EnforceBC where
  particle_boundary : ParticleBoundary
  plo0 : ℚ
  plo1 : ℚ
  phi0 : ℚ
  phi1 : ℚ
deriving DecidableEq

/-- EnforceBC::operator() from GetAndSetPosition.H, lines 56-99.
Returns the updated particle state together with the `invalid` flag that
the C++ operator returns. -/
def EnforceBC.run (bc : EnforceBC) (p : PState) : PState × Bool :=
  if p.x < bc.plo0 ∨ p.y < bc.plo1 ∨ p.x > bc.phi0 ∨ p.y > bc.phi1 then
    let len_x := bc.phi0 - bc.plo0
    let len_y := bc.phi1 - bc.plo1
    match bc.particle_boundary with
    | ParticleBoundary.Reflecting =>
      let x1 := wrapLen (p.x - bc.plo0) (2 * len_x)
      let x2 := x1 + bc.plo0
      let xr := if x2 > bc.phi0 then 2 * bc.phi0 - x2 else x2
      let uxr := if x2 > bc.phi0 then -p.ux else p.ux
      let y1 := wrapLen (p.y - bc.plo1) (2 * len_y)
      let y2 := y1 + bc.plo1
      let yr := if y2 > bc.phi1 then 2 * bc.phi1 - y2 else y2
      let uyr := if y2 > bc.phi1 then -p.uy else p.uy
      ({ p with x := xr, y := yr, ux := uxr, uy := uyr }, false)
    | ParticleBoundary.Periodic =>
      let xr := wrapLen (p.x - bc.plo0) len_x + bc.plo0
      let yr := wrapLen (p.y - bc.plo1) len_y + bc.plo1
      ({ p with x := xr, y := yr }, false)
    | ParticleBoundary.Absorbing =>
      ({ p with w := 0, idValid := false }, true)
  else
    (p, false)

/-- CheckDomainBounds::contains from Fields.H, lines 505-508: strict
inequalities on both axes. -/
def CheckDomainBounds.contains (lo0 lo1 hi0 hi1 x y : ℚ) : Bool :=
  lo0 < x ∧ x < hi0 ∧ lo1 < y ∧ y < hi1

/-- Deposition contribution of a particle to one grid node.
Modelled from the spec: the deposition kernels (shape-function current and
charge deposition, section 4.2 of the spec) are not under src/; the spec
states that a macro-particle's grid contribution is its weight times the
shape-function footprint factor, so a zero-weight particle contributes
zero to any node. -/
def depositContribution (p : PState) (shapeFactor : ℚ) : ℚ :=
  p.w * shapeFactor

/-! ## Field-component registry: assert_map (Fields.H, lines 31-48) -/

/-- WhichSlice::slice enumeration from Fields.H: the buffer roles of the
field store. -/
inductive WhichSlice
  | Next
  | This
  | Previous
  | RhomJzIons
  | Salame
  | PCIter
  | PCPrevIter
deriving DecidableEq

/-- Diagnostic data written to amrex::ErrorStream() by assert_map::operator[]
before the assertion fires: the offending component name and the listing of
every allocated (name, index) pair of the map, in map order. -/
structure CompNotAllocated where
  offending : String
  allocated : List (String × Int)
deriving DecidableEq

/-- Model of a std::map<std::string, int>: an association list whose keys
are unique (std::map enforces uniqueness; we carry it as a hypothesis where
needed). -/
abbrev AssertMap := List (String × Int)

/-- assert_map::operator[] const, Fields.H lines 32-42: if count(str)==0,
print the offending name and all allocated components, then fail the
assertion (modelled as an error value carrying what was printed);
otherwise return at(str). -/
def AssertMap.get (m : AssertMap) (str : String) : Except CompNotAllocated Int :=
  if (m.countP (fun kv => kv.1 = str)) = 0 then
    Except.error ⟨str, m⟩
  else
    Except.ok (((List.lookup str m).getD 0))

/-! ## Slice buffer shift: Fields::shift (Fields.H, lines 361-382)

The slice MultiFab stores all roles' components side by side in one
component axis; Comps[role] maps names to flat component indices.  shift
copies, for each requested name, the source role's component into the
destination role's component, cell by cell, in list order (the CUDA kernel
runs the inner loop over n sequentially per cell). -/

/-- One cell of the slice MultiFab: the values of all flat components at a
fixed (i, j). -/
abbrev SliceCell := Nat → ℚ

/-- The whole slice array: component values indexed by (i, j, comp). -/
abbrev Slice := Nat → Nat → SliceCell

/-- The inner loop of Fields::shift at one cell: for n = 0..ncomps-1 in
order, array(i,j,c_idx_dst[n]) = array(i,j,c_idx_src[n]).  The reads see
the writes of earlier iterations, hence the sequential fold. -/
def shiftCell (pairs : List (Nat × Nat)) (cell : SliceCell) : SliceCell :=
  pairs.foldl (fun acc dstSrc =>
    fun c => if c = dstSrc.1 then acc dstSrc.2 else acc c) cell

/-- Component registry of one slice role, name to flat component index
(the relevant content of Comps[islice]). -/
abbrev CompMap := List (String × Nat)

/-- Index of a named component in a role's registry.  assert_map aborts on
an unregistered name (claim C1); theorems using compIdx carry registration
hypotheses that rule the default out. -/
def compIdx (m : CompMap) (nm : String) : Nat := (List.lookup nm m).getD 0

/-- Fields::shift (Fields.H 361-382): c_idx_src[n] = Comps[islice_src][comps[n]],
c_idx_dst[n] = Comps[islice_dst][comps[n]], then one kernel copies
src components to dst components at every cell. -/
def Fields.shift (mdst msrc : CompMap) (comps : List String) (a : Slice) : Slice :=
  let pairs := comps.map (fun nm => (compIdx mdst nm, compIdx msrc nm))
  fun i j => shiftCell pairs (a i j)

/-! ## Numeric narrowing in the configuration parser
(Parser.H, fillWithParser overloads for float and int) -/

/-- std::numeric_limits<float>::max() as an exact rational:
(2 - 2^-23) * 2^127 = 340282346638528859811704183484516925440. -/
def FLT_MAX : ℚ := 340282346638528859811704183484516925440

/-- std::numeric_limits<float>::lowest() = -FLT_MAX. -/
def FLT_LOWEST : ℚ := -340282346638528859811704183484516925440

/-- std::numeric_limits<int>::max() = 2^31 - 1. -/
def INT_MAX : Int := 2147483647

/-- std::numeric_limits<int>::lowest() = -2^31. -/
def INT_LOWEST : Int := -2147483648

/-- Parser::fillWithParser float overload (Parser.H lines 98-108): the
expression is parsed to a double v; if v exceeds the float range in either
direction the assertion with the overflow message fires (modelled as the
error of the Except), otherwise static_cast<float>(v) is stored.  The
numeric value of the cast is modelled exactly (rounding of in-range values
to float precision is not modelled). -/
def fillWithParserFloat (v : ℚ) : Except String ℚ :=
  if v ≤ FLT_MAX ∧ v ≥ FLT_LOWEST then
    Except.ok v
  else
    Except.error "Error: Overflow detected when casting to float"

/-- Parser::fillWithParser int overload (Parser.H lines 110-120): the
expression is parsed to an amrex::Long v; out-of-range values fire the
assertion with the overflow message, in-range values are stored through
static_cast<int> (the identity on the represented integer). -/
def fillWithParserInt (v : Int) : Except String Int :=
  if v ≤ INT_MAX ∧ v ≥ INT_LOWEST then
    Except.ok v
  else
    Except.error "Error: Overflow detected when casting to int"

/-! ## Predictor-corrector loop diagnostics (claim C6)

Hipace.H (in src) declares the loop's configuration and diagnostics:
m_predcorr_B_error_tolerance (default 4e-2), m_predcorr_max_iterations
(default 30), m_predcorr_avg_iterations and m_predcorr_avg_B_error
(both starting at 0). -/

/-- Default of Hipace::m_predcorr_max_iterations (Hipace.H):
maximum number of iterations in the predictor corrector loop. -/
def m_predcorr_max_iterations : Nat := 30

/-- Result of one predictor-corrector solve on a slice. -/
structure PredCorrResult where
  B : ℚ
  iterations : Nat
  finalError : ℚ
  aborted : Bool

/-- Running-average diagnostics accumulated across slices
(Hipace::m_predcorr_avg_iterations, Hipace::m_predcorr_avg_B_error). -/
structure PredCorrDiags where
  avg_iterations : ℚ
  avg_B_error : ℚ
deriving DecidableEq

/-- Modelled from the spec: the body of
Hipace::PredictorCorrectorLoopToSolveBxBy lives in Hipace.cpp, which is not
under src/; only its declaration, defaults and diagnostics members
(Hipace.H) are.  Per spec section 4.3, the loop repeats
advance-deposit-solve-mix while the relative B-field error is above the
tolerance, up to the maximum iteration count; one iteration is abstracted
as a step function on the B estimate and an error functional.  The loop
never aborts: exhausting the iteration budget just returns the best
available estimate. -/
def predcorrLoop (step : ℚ → ℚ) (err : ℚ → ℚ) (tol : ℚ) :
    Nat → ℚ → Nat → PredCorrResult
  | 0, B, iters => ⟨B, iters, err B, false⟩
  | budget + 1, B, iters =>
    if err B > tol then predcorrLoop step err tol budget (step B) (iters + 1)
    else ⟨B, iters, err B, false⟩

/-- Modelled from the spec: a full predictor-corrector solve starts from the
extrapolated guess B0 with a fresh iteration counter and the configured
maximum iteration count. -/
def predcorrSolve (step : ℚ → ℚ) (err : ℚ → ℚ) (tol : ℚ) (B0 : ℚ) :
    PredCorrResult :=
  predcorrLoop step err tol m_predcorr_max_iterations B0 0

/-- Modelled from the spec: after the loop, the iteration count and the
final relative B-field error are accumulated into the running diagnostics
(m_predcorr_avg_iterations += iterations; m_predcorr_avg_B_error += error;
they are averaged over slices when reported). -/
def predcorrAccumulateDiags (d : PredCorrDiags) (r : PredCorrResult) :
    PredCorrDiags :=
  ⟨d.avg_iterations + (r.iterations : ℚ), d.avg_B_error + r.finalError⟩

/-! ## Adaptive time step (claim C7)

AdaptiveTimeStep.H (in src) declares m_dt_max (upper bound of the time
step, default infinity) and m_threshold_uz (threshold beam momentum below
which the time step is not decreased, default 2). -/

/-- Default of AdaptiveTimeStep::m_threshold_uz (AdaptiveTimeStep.H). -/
def m_threshold_uz : ℚ := 2

/-- Modelled from the spec: the body of
AdaptiveTimeStep::CalculateFromMinUz lives in AdaptiveTimeStep.cpp, which
is not under src/; only the class declaration (AdaptiveTimeStep.H) is.
Per spec section 4.4, the controller computes a candidate step from the
betatron period of the slowest beam particles (dt_candidate), keeps the
previous step when the minimum longitudinal momentum is below the
threshold, and clamps the result to the configured maximum bound. -/
def calculateFromMinUz (dt_max threshold_uz dt_prev dt_candidate min_uz_mq : ℚ) :
    ℚ :=
  let new_dt := if min_uz_mq < threshold_uz then dt_prev else dt_candidate
  min new_dt dt_max

/-! ## Supporting lemmas for the registry and the loop -/

theorem lookup_eq_of_nodup_keys :
    ∀ {m : List (String × Int)} {s : String} {i : Int},
    (m.map Prod.fst).Nodup → (s, i) ∈ m → List.lookup s m = some i := by
  intro m
  induction m with
  | nil => intro s i _ h; cases h
  | cons kv rest ih =>
    intro s i hnd hmem
    rw [List.map_cons, List.nodup_cons] at hnd
    rcases List.mem_cons.mp hmem with h | h
    · subst h
      simp [List.lookup]
    · have hkey : s ∈ rest.map Prod.fst := List.mem_map.mpr ⟨(s, i), h, rfl⟩
      have hne : kv.1 ≠ s := fun hEq => hnd.1 (hEq ▸ hkey)
      have hbeq : (s == kv.1) = false := by
        rw [beq_eq_false_iff_ne]
        exact fun hEq => hne hEq.symm
      calc List.lookup s (kv :: rest) = List.lookup s rest := by
            simp [List.lookup, hbeq]
        _ = some i := ih hnd.2 h

theorem predcorrLoop_no_abort (step err : ℚ → ℚ) (tol : ℚ) (budget : Nat) :
    ∀ B iters, (predcorrLoop step err tol budget B iters).aborted = false
      ∧ (predcorrLoop step err tol budget B iters).iterations ≤ iters + budget := by
  induction budget with
  | zero => intro B iters; simp [predcorrLoop]
  | succ n ih =>
    intro B iters
    by_cases h : err B > tol
    · have := ih (step B) (iters + 1)
      simp only [predcorrLoop, if_pos h]
      exact ⟨this.1, by omega⟩
    · simp [predcorrLoop, if_neg h]

/-! ## Claim theorems -/

/-- C1: For every slice role and every component name string, looking up the
name in the field-component registry when it was not previously registered
for that role is a fatal error (assertion failure) that first prints the
offending name together with a listing of all currently allocated component
names for that role; looking up a registered name returns its index. -/
theorem assert_map_lookup (registry : WhichSlice → AssertMap) (role : WhichSlice)
    (s : String) :
    ((¬ ∃ i : Int, (s, i) ∈ registry role) →
      AssertMap.get (registry role) s = Except.error ⟨s, registry role⟩)
  ∧ (∀ i : Int, ((registry role).map Prod.fst).Nodup → (s, i) ∈ registry role →
      AssertMap.get (registry role) s = Except.ok i) := by
  constructor
  · intro hno
    have hz : (registry role).countP (fun kv => kv.1 = s) = 0 := by
      rw [List.countP_eq_zero]
      intro kv hkv
      simp only [decide_eq_true_eq]
      intro h
      exact hno ⟨kv.2, by rw [← h]; exact hkv⟩
    simp [AssertMap.get, hz]
  · intro i hnd hmem
    have hnz : (registry role).countP (fun kv => kv.1 = s) ≠ 0 := by
      rw [Ne, List.countP_eq_zero]
      intro hall
      have := hall (s, i) hmem
      simp at this
    rw [AssertMap.get, if_neg hnz, lookup_eq_of_nodup_keys hnd hmem]
    rfl

/-- Witness for C1: in a registry where role This has components Ez at 4 and
Bx at 5, looking up the unregistered name jx fails with the full listing,
and looking up Bx returns 5. -/
theorem assert_map_lookup_witness :
    AssertMap.get [("Ez", 4), ("Bx", 5)] "jx" =
      Except.error ⟨"jx", [("Ez", 4), ("Bx", 5)]⟩
  ∧ AssertMap.get [("Ez", 4), ("Bx", 5)] "Bx" = Except.ok 5 := by
  refine ⟨(assert_map_lookup (fun _ => [("Ez", 4), ("Bx", 5)]) WhichSlice.This "jx").1 ?_,
          (assert_map_lookup (fun _ => [("Ez", 4), ("Bx", 5)]) WhichSlice.This "Bx").2
            5 (by decide) (by decide)⟩
  rintro ⟨i, hi⟩
  rcases List.mem_cons.mp hi with h | h
  · have hfst : ("jx" : String) = "Ez" := congrArg Prod.fst h
    exact absurd hfst (by decide)
  rcases List.mem_cons.mp h with h2 | h2
  · have hfst : ("jx" : String) = "Bx" := congrArg Prod.fst h2
    exact absurd hfst (by decide)
  · cases h2

/-- C2: Under the absorbing particle boundary policy, every particle whose
transverse position (x, y) lies outside the domain box when boundary
enforcement is applied has its weight set to zero, its id marked invalid,
and the enforcement returns invalid; such a particle contributes zero
weight to any subsequent deposition. -/
theorem enforceBC_absorbing (bc : EnforceBC) (p : PState)
    (hpol : bc.particle_boundary = ParticleBoundary.Absorbing)
    (hout : p.x < bc.plo0 ∨ p.y < bc.plo1 ∨ p.x > bc.phi0 ∨ p.y > bc.phi1) :
    (bc.run p).1.w = 0 ∧ (bc.run p).1.idValid = false ∧ (bc.run p).2 = true
  ∧ ∀ shapeFactor : ℚ, depositContribution (bc.run p).1 shapeFactor = 0 := by
  simp only [EnforceBC.run, if_pos hout, hpol]
  simp [depositContribution]

/-- Witness for C2: a particle at x = 2 outside [-1, 1] x [-1, 1] under the
absorbing policy is zeroed and invalidated. -/
theorem enforceBC_absorbing_witness :
    ((2:ℚ) > 1)
  ∧ (((⟨ParticleBoundary.Absorbing, -1, -1, 1, 1⟩ : EnforceBC).run
        ⟨2, 0, 3, 4, 5, true⟩).1.w = 0
  ∧ ((⟨ParticleBoundary.Absorbing, -1, -1, 1, 1⟩ : EnforceBC).run
        ⟨2, 0, 3, 4, 5, true⟩).1.idValid = false
  ∧ ((⟨ParticleBoundary.Absorbing, -1, -1, 1, 1⟩ : EnforceBC).run
        ⟨2, 0, 3, 4, 5, true⟩).2 = true
  ∧ ∀ shapeFactor : ℚ, depositContribution
      (((⟨ParticleBoundary.Absorbing, -1, -1, 1, 1⟩ : EnforceBC).run
        ⟨2, 0, 3, 4, 5, true⟩).1) shapeFactor = 0) :=
  ⟨by decide,
   enforceBC_absorbing ⟨ParticleBoundary.Absorbing, -1, -1, 1, 1⟩
     ⟨2, 0, 3, 4, 5, true⟩ rfl (Or.inr (Or.inr (Or.inl (by decide))))⟩

/-- C4: Under the periodic particle boundary policy, every particle whose
transverse position leaves the domain is wrapped modulo the domain length
into [lo, hi] on each axis (the new coordinate differs from the old one by
an integer multiple of the domain length), both momentum components are
unchanged, and the particle remains valid with unchanged weight. -/
theorem enforceBC_periodic (bc : EnforceBC) (p : PState)
    (hpol : bc.particle_boundary = ParticleBoundary.Periodic)
    (hx : bc.plo0 < bc.phi0) (hy : bc.plo1 < bc.phi1)
    (hout : p.x < bc.plo0 ∨ p.y < bc.plo1 ∨ p.x > bc.phi0 ∨ p.y > bc.phi1) :
    (bc.run p).2 = false
  ∧ (bc.run p).1.ux = p.ux ∧ (bc.run p).1.uy = p.uy
  ∧ (bc.run p).1.w = p.w ∧ (bc.run p).1.idValid = p.idValid
  ∧ bc.plo0 ≤ (bc.run p).1.x ∧ (bc.run p).1.x ≤ bc.phi0
  ∧ bc.plo1 ≤ (bc.run p).1.y ∧ (bc.run p).1.y ≤ bc.phi1
  ∧ (∃ k : Int, (bc.run p).1.x = p.x + (bc.phi0 - bc.plo0) * (k : ℚ))
  ∧ (∃ k : Int, (bc.run p).1.y = p.y + (bc.phi1 - bc.plo1) * (k : ℚ)) := by
  have hLx : (0:ℚ) < bc.phi0 - bc.plo0 := by linarith
  have hLy : (0:ℚ) < bc.phi1 - bc.plo1 := by linarith
  obtain ⟨hx0, hx1⟩ := wrapLen_bounds (a := p.x - bc.plo0) hLx
  obtain ⟨hy0, hy1⟩ := wrapLen_bounds (a := p.y - bc.plo1) hLy
  obtain ⟨kx, hkx⟩ := wrapLen_sub_int (p.x - bc.plo0) (bc.phi0 - bc.plo0)
  obtain ⟨ky, hky⟩ := wrapLen_sub_int (p.y - bc.plo1) (bc.phi1 - bc.plo1)
  have hrun : bc.run p =
      ({ p with x := wrapLen (p.x - bc.plo0) (bc.phi0 - bc.plo0) + bc.plo0,
                y := wrapLen (p.y - bc.plo1) (bc.phi1 - bc.plo1) + bc.plo1 }, false) := by
    simp only [EnforceBC.run, if_pos hout, hpol]
  rw [hrun]
  refine ⟨rfl, rfl, rfl, rfl, rfl, by simp; linarith, by simp; linarith,
          by simp; linarith, by simp; linarith,
          ⟨kx, by simp; rw [hkx]; ring⟩, ⟨ky, by simp; rw [hky]; ring⟩⟩

/-- Witness for C4: a particle at x = 4 in the domain [-1, 1] x [-1, 1]
under the periodic policy is wrapped back into the domain with momentum,
weight and validity untouched. -/
theorem enforceBC_periodic_witness :
    ((-1:ℚ) < 1 ∧ (4:ℚ) > 1)
  ∧ (((⟨ParticleBoundary.Periodic, -1, -1, 1, 1⟩ : EnforceBC).run
        ⟨4, 0, 3, 4, 5, true⟩).2 = false
  ∧ ((⟨ParticleBoundary.Periodic, -1, -1, 1, 1⟩ : EnforceBC).run
        ⟨4, 0, 3, 4, 5, true⟩).1.ux = 3
  ∧ ((⟨ParticleBoundary.Periodic, -1, -1, 1, 1⟩ : EnforceBC).run
        ⟨4, 0, 3, 4, 5, true⟩).1.uy = 4
  ∧ ((⟨ParticleBoundary.Periodic, -1, -1, 1, 1⟩ : EnforceBC).run
        ⟨4, 0, 3, 4, 5, true⟩).1.w = 5
  ∧ ((⟨ParticleBoundary.Periodic, -1, -1, 1, 1⟩ : EnforceBC).run
        ⟨4, 0, 3, 4, 5, true⟩).1.idValid = true
  ∧ (-1:ℚ) ≤ ((⟨ParticleBoundary.Periodic, -1, -1, 1, 1⟩ : EnforceBC).run
        ⟨4, 0, 3, 4, 5, true⟩).1.x
  ∧ ((⟨ParticleBoundary.Periodic, -1, -1, 1, 1⟩ : EnforceBC).run
        ⟨4, 0, 3, 4, 5, true⟩).1.x ≤ 1
  ∧ (-1:ℚ) ≤ ((⟨ParticleBoundary.Periodic, -1, -1, 1, 1⟩ : EnforceBC).run
        ⟨4, 0, 3, 4, 5, true⟩).1.y
  ∧ ((⟨ParticleBoundary.Periodic, -1, -1, 1, 1⟩ : EnforceBC).run
        ⟨4, 0, 3, 4, 5, true⟩).1.y ≤ 1
  ∧ (∃ k : Int, ((⟨ParticleBoundary.Periodic, -1, -1, 1, 1⟩ : EnforceBC).run
        ⟨4, 0, 3, 4, 5, true⟩).1.x = 4 + ((1:ℚ) - -1) * (k : ℚ))
  ∧ (∃ k : Int, ((⟨ParticleBoundary.Periodic, -1, -1, 1, 1⟩ : EnforceBC).run
        ⟨4, 0, 3, 4, 5, true⟩).1.y = 0 + ((1:ℚ) - -1) * (k : ℚ))) :=
  ⟨⟨by decide, by decide⟩,
   enforceBC_periodic ⟨ParticleBoundary.Periodic, -1, -1, 1, 1⟩
     ⟨4, 0, 3, 4, 5, true⟩ rfl (by decide) (by decide)
     (Or.inr (Or.inr (Or.inl (by decide))))⟩

/-- C9: For every particle boundary policy, a particle whose transverse
position lies exactly on a domain boundary, with both coordinates inside
the closed box, is left entirely unchanged by boundary enforcement and is
reported valid, because the out-of-domain test uses strict inequalities;
CheckDomainBounds::contains likewise excludes such a point. -/
theorem enforceBC_on_boundary (bc : EnforceBC) (p : PState)
    (hx : bc.plo0 ≤ p.x ∧ p.x ≤ bc.phi0) (hy : bc.plo1 ≤ p.y ∧ p.y ≤ bc.phi1)
    (hbd : p.x = bc.plo0 ∨ p.x = bc.phi0 ∨ p.y = bc.plo1 ∨ p.y = bc.phi1) :
    bc.run p = (p, false)
  ∧ CheckDomainBounds.contains bc.plo0 bc.plo1 bc.phi0 bc.phi1 p.x p.y = false := by
  constructor
  · have hin : ¬(p.x < bc.plo0 ∨ p.y < bc.plo1 ∨ p.x > bc.phi0 ∨ p.y > bc.phi1) := by
      push_neg
      exact ⟨hx.1, hy.1, hx.2, hy.2⟩
    simp [EnforceBC.run, hin]
  · simp only [CheckDomainBounds.contains, decide_eq_false_iff_not]
    rintro ⟨h1, h2, h3, h4⟩
    rcases hbd with h | h | h | h
    · exact absurd h1 (by rw [h]; exact lt_irrefl _)
    · exact absurd h2 (by rw [h]; exact lt_irrefl _)
    · exact absurd h3 (by rw [h]; exact lt_irrefl _)
    · exact absurd h4 (by rw [h]; exact lt_irrefl _)

/-- Witness for C9: a particle exactly on the upper x boundary of
[-1, 1] x [-1, 1] is untouched and valid under the reflecting policy, and
CheckDomainBounds does not contain it. -/
theorem enforceBC_on_boundary_witness :
    ((-1:ℚ) ≤ 1 ∧ (1:ℚ) ≤ 1) ∧ ((-1:ℚ) ≤ 0 ∧ (0:ℚ) ≤ 1)
  ∧ ((⟨ParticleBoundary.Reflecting, -1, -1, 1, 1⟩ : EnforceBC).run
      ⟨1, 0, 3, 4, 5, true⟩ = (⟨1, 0, 3, 4, 5, true⟩, false)
  ∧ CheckDomainBounds.contains (-1) (-1) 1 1 1 0 = false) :=
  ⟨⟨by decide, by decide⟩, ⟨by decide, by decide⟩,
   enforceBC_on_boundary ⟨ParticleBoundary.Reflecting, -1, -1, 1, 1⟩
     ⟨1, 0, 3, 4, 5, true⟩ ⟨by decide, by decide⟩ ⟨by decide, by decide⟩
     (Or.inr (Or.inl (by decide)))⟩

/-- C8: For every configuration value parsed into a narrower numeric type
(double to float, or long to int), a value outside the representable range
of the target type terminates fatally with an explicit overflow message,
and a value within range is stored through the cast with no error. -/
theorem fillWithParser_narrowing (v : ℚ) (n : Int) :
    ((v ≤ FLT_MAX ∧ v ≥ FLT_LOWEST) → fillWithParserFloat v = Except.ok v)
  ∧ (¬(v ≤ FLT_MAX ∧ v ≥ FLT_LOWEST) →
      fillWithParserFloat v =
        Except.error "Error: Overflow detected when casting to float")
  ∧ ((n ≤ INT_MAX ∧ n ≥ INT_LOWEST) → fillWithParserInt n = Except.ok n)
  ∧ (¬(n ≤ INT_MAX ∧ n ≥ INT_LOWEST) →
      fillWithParserInt n =
        Except.error "Error: Overflow detected when casting to int") := by
  refine ⟨fun h => ?_, fun h => ?_, fun h => ?_, fun h => ?_⟩
  · rw [fillWithParserFloat, if_pos h]
  · rw [fillWithParserFloat, if_neg h]
  · rw [fillWithParserInt, if_pos h]
  · rw [fillWithParserInt, if_neg h]

/-- Witness for C8: 1 narrows to float, 2^128 overflows float; 5 narrows
to int, 2^31 overflows int. -/
theorem fillWithParser_narrowing_witness :
    fillWithParserFloat 1 = Except.ok 1
  ∧ fillWithParserFloat 340282366920938463463374607431768211456 =
      Except.error "Error: Overflow detected when casting to float"
  ∧ fillWithParserInt 5 = Except.ok 5
  ∧ fillWithParserInt 2147483648 =
      Except.error "Error: Overflow detected when casting to int" :=
  ⟨(fillWithParser_narrowing 1 5).1 ⟨by decide, by decide⟩,
   (fillWithParser_narrowing 340282366920938463463374607431768211456 5).2.1
     (by intro h; exact absurd h.1 (by decide)),
   (fillWithParser_narrowing 1 5).2.2.1 ⟨by decide, by decide⟩,
   (fillWithParser_narrowing 1 2147483648).2.2.2
     (by intro h; exact absurd h.1 (by decide))⟩

/-- C6: When the predictor-corrector loop exhausts its maximum iteration
count (default 30) without the relative B-field error dropping below the
tolerance, the run does not abort: the solve returns the best available
B-field estimate with the abort flag never set, the iteration count stays
within the maximum, and the iteration count and final error are
accumulated into the running-average diagnostics. -/
theorem predcorr_non_convergence (step err : ℚ → ℚ) (tol B0 : ℚ)
    (d : PredCorrDiags) :
    m_predcorr_max_iterations = 30
  ∧ (predcorrSolve step err tol B0).aborted = false
  ∧ (predcorrSolve step err tol B0).iterations ≤ m_predcorr_max_iterations
  ∧ predcorrAccumulateDiags d (predcorrSolve step err tol B0) =
      ⟨d.avg_iterations + ((predcorrSolve step err tol B0).iterations : ℚ),
       d.avg_B_error + (predcorrSolve step err tol B0).finalError⟩ := by
  have h := predcorrLoop_no_abort step err tol m_predcorr_max_iterations B0 0
  exact ⟨rfl, h.1, by simpa [predcorrSolve] using h.2, rfl⟩

/-- C7: The adaptive time step computation never returns a step above the
configured maximum bound m_dt_max, and when the minimum longitudinal beam
momentum is below the threshold m_threshold_uz the step is not decreased
below its previous value. -/
theorem adaptive_dt_bounds (dt_max threshold_uz dt_prev dt_candidate min_uz_mq : ℚ) :
    calculateFromMinUz dt_max threshold_uz dt_prev dt_candidate min_uz_mq ≤ dt_max
  ∧ (min_uz_mq < threshold_uz → dt_prev ≤ dt_max →
      calculateFromMinUz dt_max threshold_uz dt_prev dt_candidate min_uz_mq = dt_prev) := by
  constructor
  · exact min_le_right _ _
  · intro hlt hle
    rw [calculateFromMinUz]
    simp only [if_pos hlt]
    exact min_eq_left hle

/-- Witness for C7: with dt_max = 10, threshold 2, previous step 3 and a
slow beam (min uz 1), the step stays 3 and is within the bound. -/
theorem adaptive_dt_bounds_witness :
    ((1:ℚ) < 2) ∧ ((3:ℚ) ≤ 10)
  ∧ calculateFromMinUz 10 2 3 7 1 ≤ 10
  ∧ calculateFromMinUz 10 2 3 7 1 = 3 :=
  ⟨by decide, by decide,
   (adaptive_dt_bounds 10 2 3 7 1).1,
   (adaptive_dt_bounds 10 2 3 7 1).2 (by decide) (by decide)⟩

/-- C3: Under the reflecting particle boundary policy, every particle whose
transverse position leaves the domain is mapped back into [lo, hi] on both
axes by exact mirror symmetry about the crossed boundary: on each axis the
final position either equals the original shifted by an even number of
domain lengths with the momentum unchanged (no reflection on that axis), or
equals the mirror image 2*hi - pos shifted by an even number of domain
lengths with the momentum sign flipped (reflected axis); the particle
remains valid with unchanged weight. -/
theorem enforceBC_reflecting (bc : EnforceBC) (p : PState)
    (hpol : bc.particle_boundary = ParticleBoundary.Reflecting)
    (hx : bc.plo0 < bc.phi0) (hy : bc.plo1 < bc.phi1)
    (hout : p.x < bc.plo0 ∨ p.y < bc.plo1 ∨ p.x > bc.phi0 ∨ p.y > bc.phi1) :
    (bc.run p).2 = false
  ∧ (bc.run p).1.w = p.w ∧ (bc.run p).1.idValid = p.idValid
  ∧ bc.plo0 ≤ (bc.run p).1.x ∧ (bc.run p).1.x ≤ bc.phi0
  ∧ bc.plo1 ≤ (bc.run p).1.y ∧ (bc.run p).1.y ≤ bc.phi1
  ∧ (∃ k : Int,
      ((bc.run p).1.x = p.x + 2 * (bc.phi0 - bc.plo0) * (k : ℚ)
        ∧ (bc.run p).1.ux = p.ux)
    ∨ ((bc.run p).1.x = 2 * bc.phi0 - p.x + 2 * (bc.phi0 - bc.plo0) * (k : ℚ)
        ∧ (bc.run p).1.ux = -p.ux))
  ∧ (∃ k : Int,
      ((bc.run p).1.y = p.y + 2 * (bc.phi1 - bc.plo1) * (k : ℚ)
        ∧ (bc.run p).1.uy = p.uy)
    ∨ ((bc.run p).1.y = 2 * bc.phi1 - p.y + 2 * (bc.phi1 - bc.plo1) * (k : ℚ)
        ∧ (bc.run p).1.uy = -p.uy)) := by
  have h2L0 : (0:ℚ) < 2 * (bc.phi0 - bc.plo0) := by linarith
  have h2L1 : (0:ℚ) < 2 * (bc.phi1 - bc.plo1) := by linarith
  obtain ⟨hx0, hx1⟩ := wrapLen_bounds (a := p.x - bc.plo0) h2L0
  obtain ⟨hy0, hy1⟩ := wrapLen_bounds (a := p.y - bc.plo1) h2L1
  obtain ⟨kx, hkx⟩ := wrapLen_sub_int (p.x - bc.plo0) (2 * (bc.phi0 - bc.plo0))
  obtain ⟨ky, hky⟩ := wrapLen_sub_int (p.y - bc.plo1) (2 * (bc.phi1 - bc.plo1))
  obtain ⟨px, py, pux, puy, pw, pv⟩ := p
  obtain ⟨pol, lo0, lo1, hi0, hi1⟩ := bc
  simp only at hpol hx hy hout h2L0 h2L1 hx0 hx1 hy0 hy1 hkx hky ⊢
  subst hpol
  set wx := wrapLen (px - lo0) (2 * (hi0 - lo0)) with hwx
  set wy := wrapLen (py - lo1) (2 * (hi1 - lo1)) with hwy
  have hrun : EnforceBC.run ⟨ParticleBoundary.Reflecting, lo0, lo1, hi0, hi1⟩
      ⟨px, py, pux, puy, pw, pv⟩
      = (⟨if wx + lo0 > hi0 then 2 * hi0 - (wx + lo0) else wx + lo0,
          if wy + lo1 > hi1 then 2 * hi1 - (wy + lo1) else wy + lo1,
          if wx + lo0 > hi0 then -pux else pux,
          if wy + lo1 > hi1 then -puy else puy, pw, pv⟩, false) := by
    rw [hwx, hwy]
    simp only [EnforceBC.run, if_pos hout]
  rw [hrun]
  by_cases hbx : wx + lo0 > hi0 <;> by_cases hby : wy + lo1 > hi1
  · simp only [if_pos hbx, if_pos hby]
    refine ⟨trivial, trivial, trivial, ?_, ?_, ?_, ?_, ?_, ?_⟩
    · show lo0 ≤ 2 * hi0 - (wx + lo0); linarith
    · show 2 * hi0 - (wx + lo0) ≤ hi0; linarith
    · show lo1 ≤ 2 * hi1 - (wy + lo1); linarith
    · show 2 * hi1 - (wy + lo1) ≤ hi1; linarith
    · refine ⟨-kx, Or.inr ⟨?_, trivial⟩⟩
      show 2 * hi0 - (wx + lo0) = 2 * hi0 - px + 2 * (hi0 - lo0) * ((-kx : Int) : ℚ)
      rw [hkx]; push_cast; ring
    · refine ⟨-ky, Or.inr ⟨?_, trivial⟩⟩
      show 2 * hi1 - (wy + lo1) = 2 * hi1 - py + 2 * (hi1 - lo1) * ((-ky : Int) : ℚ)
      rw [hky]; push_cast; ring
  · simp only [if_pos hbx, if_neg hby]
    refine ⟨trivial, trivial, trivial, ?_, ?_, ?_, ?_, ?_, ?_⟩
    · show lo0 ≤ 2 * hi0 - (wx + lo0); linarith
    · show 2 * hi0 - (wx + lo0) ≤ hi0; linarith
    · show lo1 ≤ wy + lo1; linarith
    · show wy + lo1 ≤ hi1; exact le_of_not_lt hby
    · refine ⟨-kx, Or.inr ⟨?_, trivial⟩⟩
      show 2 * hi0 - (wx + lo0) = 2 * hi0 - px + 2 * (hi0 - lo0) * ((-kx : Int) : ℚ)
      rw [hkx]; push_cast; ring
    · refine ⟨ky, Or.inl ⟨?_, trivial⟩⟩
      show wy + lo1 = py + 2 * (hi1 - lo1) * (ky : ℚ)
      rw [hky]; ring
  · simp only [if_neg hbx, if_pos hby]
    refine ⟨trivial, trivial, trivial, ?_, ?_, ?_, ?_, ?_, ?_⟩
    · show lo0 ≤ wx + lo0; linarith
    · show wx + lo0 ≤ hi0; exact le_of_not_lt hbx
    · show lo1 ≤ 2 * hi1 - (wy + lo1); linarith
    · show 2 * hi1 - (wy + lo1) ≤ hi1; linarith
    · refine ⟨kx, Or.inl ⟨?_, trivial⟩⟩
      show wx + lo0 = px + 2 * (hi0 - lo0) * (kx : ℚ)
      rw [hkx]; ring
    · refine ⟨-ky, Or.inr ⟨?_, trivial⟩⟩
      show 2 * hi1 - (wy + lo1) = 2 * hi1 - py + 2 * (hi1 - lo1) * ((-ky : Int) : ℚ)
      rw [hky]; push_cast; ring
  · simp only [if_neg hbx, if_neg hby]
    refine ⟨trivial, trivial, trivial, ?_, ?_, ?_, ?_, ?_, ?_⟩
    · show lo0 ≤ wx + lo0; linarith
    · show wx + lo0 ≤ hi0; exact le_of_not_lt hbx
    · show lo1 ≤ wy + lo1; linarith
    · show wy + lo1 ≤ hi1; exact le_of_not_lt hby
    · refine ⟨kx, Or.inl ⟨?_, trivial⟩⟩
      show wx + lo0 = px + 2 * (hi0 - lo0) * (kx : ℚ)
      rw [hkx]; ring
    · refine ⟨ky, Or.inl ⟨?_, trivial⟩⟩
      show wy + lo1 = py + 2 * (hi1 - lo1) * (ky : ℚ)
      rw [hky]; ring

/-- Witness for C3: a particle at x = 4 above the domain [-1, 1] x [-1, 1]
under the reflecting policy is reflected back into the domain with mirror
symmetry, stays valid and keeps its weight. -/
theorem enforceBC_reflecting_witness :
    ((-1:ℚ) < 1) ∧ ((4:ℚ) > 1)
  ∧ (((⟨ParticleBoundary.Reflecting, -1, -1, 1, 1⟩ : EnforceBC).run
        ⟨4, 0, 3, 4, 5, true⟩).2 = false
  ∧ ((⟨ParticleBoundary.Reflecting, -1, -1, 1, 1⟩ : EnforceBC).run
        ⟨4, 0, 3, 4, 5, true⟩).1.w = 5
  ∧ ((⟨ParticleBoundary.Reflecting, -1, -1, 1, 1⟩ : EnforceBC).run
        ⟨4, 0, 3, 4, 5, true⟩).1.idValid = true
  ∧ (-1:ℚ) ≤ ((⟨ParticleBoundary.Reflecting, -1, -1, 1, 1⟩ : EnforceBC).run
        ⟨4, 0, 3, 4, 5, true⟩).1.x
  ∧ ((⟨ParticleBoundary.Reflecting, -1, -1, 1, 1⟩ : EnforceBC).run
        ⟨4, 0, 3, 4, 5, true⟩).1.x ≤ 1
  ∧ (-1:ℚ) ≤ ((⟨ParticleBoundary.Reflecting, -1, -1, 1, 1⟩ : EnforceBC).run
        ⟨4, 0, 3, 4, 5, true⟩).1.y
  ∧ ((⟨ParticleBoundary.Reflecting, -1, -1, 1, 1⟩ : EnforceBC).run
        ⟨4, 0, 3, 4, 5, true⟩).1.y ≤ 1
  ∧ (∃ k : Int,
      (((⟨ParticleBoundary.Reflecting, -1, -1, 1, 1⟩ : EnforceBC).run
          ⟨4, 0, 3, 4, 5, true⟩).1.x = 4 + 2 * ((1:ℚ) - -1) * (k : ℚ)
        ∧ ((⟨ParticleBoundary.Reflecting, -1, -1, 1, 1⟩ : EnforceBC).run
            ⟨4, 0, 3, 4, 5, true⟩).1.ux = 3)
    ∨ (((⟨ParticleBoundary.Reflecting, -1, -1, 1, 1⟩ : EnforceBC).run
          ⟨4, 0, 3, 4, 5, true⟩).1.x = 2 * 1 - 4 + 2 * ((1:ℚ) - -1) * (k : ℚ)
        ∧ ((⟨ParticleBoundary.Reflecting, -1, -1, 1, 1⟩ : EnforceBC).run
            ⟨4, 0, 3, 4, 5, true⟩).1.ux = -3))
  ∧ (∃ k : Int,
      (((⟨ParticleBoundary.Reflecting, -1, -1, 1, 1⟩ : EnforceBC).run
          ⟨4, 0, 3, 4, 5, true⟩).1.y = 0 + 2 * ((1:ℚ) - -1) * (k : ℚ)
        ∧ ((⟨ParticleBoundary.Reflecting, -1, -1, 1, 1⟩ : EnforceBC).run
            ⟨4, 0, 3, 4, 5, true⟩).1.uy = 4)
    ∨ (((⟨ParticleBoundary.Reflecting, -1, -1, 1, 1⟩ : EnforceBC).run
          ⟨4, 0, 3, 4, 5, true⟩).1.y = 2 * 1 - 0 + 2 * ((1:ℚ) - -1) * (k : ℚ)
        ∧ ((⟨ParticleBoundary.Reflecting, -1, -1, 1, 1⟩ : EnforceBC).run
            ⟨4, 0, 3, 4, 5, true⟩).1.uy = -4))) :=
  ⟨by decide, by decide,
   enforceBC_reflecting ⟨ParticleBoundary.Reflecting, -1, -1, 1, 1⟩
     ⟨4, 0, 3, 4, 5, true⟩ rfl (by decide) (by decide)
     (Or.inr (Or.inr (Or.inl (by decide))))⟩

/-! ## Lemmas about the sequential per-cell copy of Fields::shift -/

theorem shiftCell_eq_of_not_mem_dst :
    ∀ (pairs : List (Nat × Nat)) (row : SliceCell) (c : Nat),
    c ∉ pairs.map Prod.fst → shiftCell pairs row c = row c := by
  intro pairs
  induction pairs with
  | nil => intro row c _; rfl
  | cons p ps ih =>
    intro row c h
    rw [List.map_cons] at h
    have h1 : c ≠ p.1 := fun hEq => h (hEq ▸ List.mem_cons_self _ _)
    have h2 : c ∉ ps.map Prod.fst := fun hc => h (List.mem_cons_of_mem _ hc)
    calc shiftCell (p :: ps) row c
        = shiftCell ps (fun c' => if c' = p.1 then row p.2 else row c') c := rfl
      _ = (fun c' => if c' = p.1 then row p.2 else row c') c := ih _ c h2
      _ = row c := if_neg h1

theorem shiftCell_eq_of_mem :
    ∀ (pairs : List (Nat × Nat)) (row : SliceCell) (d s : Nat),
    (pairs.map Prod.fst).Nodup →
    (∀ q ∈ pairs, ∀ r ∈ pairs, q.1 ≠ r.2) →
    (d, s) ∈ pairs → shiftCell pairs row d = row s := by
  intro pairs
  induction pairs with
  | nil => intro row d s _ _ h; cases h
  | cons p ps ih =>
    intro row d s hnd hdisj hmem
    rw [List.map_cons, List.nodup_cons] at hnd
    rcases List.mem_cons.mp hmem with h | h
    · subst h
      have hnotin : d ∉ ps.map Prod.fst := by simpa using hnd.1
      calc shiftCell ((d, s) :: ps) row d
          = shiftCell ps (fun c => if c = d then row s else row c) d := rfl
        _ = (fun c => if c = d then row s else row c) d :=
            shiftCell_eq_of_not_mem_dst ps _ d hnotin
        _ = row s := if_pos rfl
    · have hsp : s ≠ p.1 := by
        have hps := hdisj p (List.mem_cons_self _ _) (d, s) hmem
        exact fun hEq => hps (by rw [hEq])
      have hdj : ∀ q ∈ ps, ∀ r ∈ ps, q.1 ≠ r.2 := fun q hq r hr =>
        hdisj q (List.mem_cons_of_mem _ hq) r (List.mem_cons_of_mem _ hr)
      calc shiftCell (p :: ps) row d
          = shiftCell ps (fun c => if c = p.1 then row p.2 else row c) d := rfl
        _ = (fun c => if c = p.1 then row p.2 else row c) s := ih _ d s hnd.2 hdj h
        _ = row s := if_neg hsp

/-- C5 counterexample: shifting from a source role to a destination role and
back does NOT restore the destination role's original contents bit-for-bit.
With component Bx at flat index 0 for the destination role and index 1 for
the source role, a cell holding 5 in the destination component and 7 in the
source component ends up with 7 in the destination component after the
round trip, not its original 5. -/
theorem shift_round_trip_counterexample :
    Fields.shift [("Bx", 1)] [("Bx", 0)] ["Bx"]
      (Fields.shift [("Bx", 0)] [("Bx", 1)] ["Bx"]
        (fun _ _ c => if c = 0 then (5:ℚ) else 7)) 0 0 0
    ≠ (fun _ _ c => if c = 0 then (5:ℚ) else 7) 0 0 0 := by decide

/-- C5 (amended): shifting the named components from a source role to a
destination role and then shifting in the opposite sense restores the
source role's named-component contents bit-for-bit (the source components
are never written), and leaves the destination role's named components
equal to the source's original contents as well; the destination role's
own prior contents are overwritten by the first shift and are only
restored when they already coincided with the source's.  The shift is a
pure per-cell index-to-index copy with no recomputation. -/
theorem shift_round_trip (mdst msrc : CompMap) (names : List String) (a : Slice)
    (hreg : ∀ nm ∈ names, (List.lookup nm mdst).isSome ∧ (List.lookup nm msrc).isSome)
    (hdnodup : (names.map (fun nm => compIdx mdst nm)).Nodup)
    (hsnodup : (names.map (fun nm => compIdx msrc nm)).Nodup)
    (hdisj : ∀ nm1 ∈ names, ∀ nm2 ∈ names, compIdx mdst nm1 ≠ compIdx msrc nm2) :
    ∀ (i j : Nat), ∀ nm ∈ names,
      Fields.shift msrc mdst names (Fields.shift mdst msrc names a) i j
          (compIdx msrc nm) = a i j (compIdx msrc nm)
    ∧ Fields.shift msrc mdst names (Fields.shift mdst msrc names a) i j
          (compIdx mdst nm) = a i j (compIdx msrc nm) := by
  intro i j nm hnm
  have _ := hreg
  have hfst1 : ((names.map (fun n => (compIdx mdst n, compIdx msrc n))).map Prod.fst)
      = names.map (fun n => compIdx mdst n) := by
    rw [List.map_map]; rfl
  have hfst2 : ((names.map (fun n => (compIdx msrc n, compIdx mdst n))).map Prod.fst)
      = names.map (fun n => compIdx msrc n) := by
    rw [List.map_map]; rfl
  have hdj1 : ∀ q ∈ names.map (fun n => (compIdx mdst n, compIdx msrc n)),
      ∀ r ∈ names.map (fun n => (compIdx mdst n, compIdx msrc n)), q.1 ≠ r.2 := by
    intro q hq r hr
    obtain ⟨n1, hn1, rfl⟩ := List.mem_map.mp hq
    obtain ⟨n2, hn2, rfl⟩ := List.mem_map.mp hr
    exact hdisj n1 hn1 n2 hn2
  have hdj2 : ∀ q ∈ names.map (fun n => (compIdx msrc n, compIdx mdst n)),
      ∀ r ∈ names.map (fun n => (compIdx msrc n, compIdx mdst n)), q.1 ≠ r.2 := by
    intro q hq r hr
    obtain ⟨n1, hn1, rfl⟩ := List.mem_map.mp hq
    obtain ⟨n2, hn2, rfl⟩ := List.mem_map.mp hr
    exact Ne.symm (hdisj n2 hn2 n1 hn1)
  have hmem1 : (compIdx mdst nm, compIdx msrc nm)
      ∈ names.map (fun n => (compIdx mdst n, compIdx msrc n)) :=
    List.mem_map.mpr ⟨nm, hnm, rfl⟩
  have hmem2 : (compIdx msrc nm, compIdx mdst nm)
      ∈ names.map (fun n => (compIdx msrc n, compIdx mdst n)) :=
    List.mem_map.mpr ⟨nm, hnm, rfl⟩
  have hstep1 : ∀ c : Nat, Fields.shift mdst msrc names a i j c
      = shiftCell (names.map (fun n => (compIdx mdst n, compIdx msrc n))) (a i j) c :=
    fun _ => rfl
  have hstep2 : ∀ (b : Slice) (c : Nat), Fields.shift msrc mdst names b i j c
      = shiftCell (names.map (fun n => (compIdx msrc n, compIdx mdst n))) (b i j) c :=
    fun _ _ => rfl
  constructor
  · rw [hstep2]
    rw [shiftCell_eq_of_mem _ _ _ _ (hfst2 ▸ hsnodup) hdj2 hmem2]
    rw [show (Fields.shift mdst msrc names a) i j (compIdx mdst nm)
          = shiftCell (names.map (fun n => (compIdx mdst n, compIdx msrc n)))
              (a i j) (compIdx mdst nm) from rfl]
    rw [shiftCell_eq_of_mem _ _ _ _ (hfst1 ▸ hdnodup) hdj1 hmem1]
  · rw [hstep2]
    have hnot : compIdx mdst nm
        ∉ (names.map (fun n => (compIdx msrc n, compIdx mdst n))).map Prod.fst := by
      rw [hfst2]
      intro hmem
      obtain ⟨n2, hn2, hEq⟩ := List.mem_map.mp hmem
      exact hdisj nm hnm n2 hn2 hEq.symm
    rw [shiftCell_eq_of_not_mem_dst _ _ _ hnot]
    rw [show (Fields.shift mdst msrc names a) i j (compIdx mdst nm)
          = shiftCell (names.map (fun n => (compIdx mdst n, compIdx msrc n)))
              (a i j) (compIdx mdst nm) from rfl]
    rw [shiftCell_eq_of_mem _ _ _ _ (hfst1 ▸ hdnodup) hdj1 hmem1]

/-- Witness for the amended C5: with Bx registered at index 0 of the
destination role and index 1 of the source role, the round trip leaves both
roles holding the source's original value 7 at every cell. -/
theorem shift_round_trip_witness :
    Fields.shift [("Bx", 1)] [("Bx", 0)] ["Bx"]
      (Fields.shift [("Bx", 0)] [("Bx", 1)] ["Bx"]
        (fun _ _ c => if c = 0 then (5:ℚ) else 7)) 0 0 1
      = (fun _ _ c => if c = 0 then (5:ℚ) else 7) 0 0 1
  ∧ Fields.shift [("Bx", 1)] [("Bx", 0)] ["Bx"]
      (Fields.shift [("Bx", 0)] [("Bx", 1)] ["Bx"]
        (fun _ _ c => if c = 0 then (5:ℚ) else 7)) 0 0 0
      = (fun _ _ c => if c = 0 then (5:ℚ) else 7) 0 0 1 :=
  shift_round_trip [("Bx", 0)] [("Bx", 1)] ["Bx"]
    (fun _ _ c => if c = 0 then (5:ℚ) else 7)
    (by intro nm hnm; rw [List.mem_singleton] at hnm; subst hnm; exact ⟨by decide, by decide⟩)
    (by decide) (by decide)
    (by intro nm1 h1 nm2 h2
        rw [List.mem_singleton] at h1 h2
        subst h1; subst h2; decide)
    0 0 "Bx" (List.mem_singleton.mpr rfl)

/-! ## String-valued configuration parsing: Parser::fillWithParser for
std::string (Parser.H, lines 134-212)

Strings are modelled as lists of characters.  The external numeric
expression evaluator (amrex::Parser plus the stringstream formatting, an
external collaborator per the spec) is a parameter of the environment.
The static recursive_symbols set is threaded explicitly; AMREX_ALWAYS_ASSERT
failures become error values.  The function is fuelled; a separate theorem
shows that for every input enough fuel exists, which is the termination
property of the original while-loop / recursion. -/

/-- The escape stand-in char(1) for a doubled opening brace. -/
def escOpen : Char := Char.ofNat 1

/-- The escape stand-in char(2) for a doubled closing brace. -/
def escClose : Char := Char.ofNat 2

/-- The opening brace character. -/
def obr : Char := '\x7b'

/-- The closing brace character. -/
def cbr : Char := '\x7d'

/-- The loop replacing each doubled opening brace with char(1): repeatedly
finding the first occurrence and replacing it equals one greedy
left-to-right pairing pass. -/
def escapeOpens : List Char → List Char
  | [] => []
  | [c] => [c]
  | c1 :: c2 :: rest =>
    if c1 = obr ∧ c2 = obr then escOpen :: escapeOpens rest
    else c1 :: escapeOpens (c2 :: rest)

/-- Helper for the doubled-closing-brace loop: the C++ loop repeatedly
replaces the LAST occurrence (rfind), which equals a greedy right-to-left
pairing, i.e. a left-to-right pairing of the reversed list. -/
def escapeClosesRev : List Char → List Char
  | [] => []
  | [c] => [c]
  | c1 :: c2 :: rest =>
    if c1 = cbr ∧ c2 = cbr then escClose :: escapeClosesRev rest
    else c1 :: escapeClosesRev (c2 :: rest)

/-- The loop replacing each doubled closing brace with char(2), pairing
from the right. -/
def escapeCloses (l : List Char) : List Char := (escapeClosesRev l.reverse).reverse

/-- The backtransform loops replacing char(1) with the opening and char(2)
with the closing brace; single-character replacements amount to a map. -/
def unescape (l : List Char) : List Char :=
  l.map (fun c => if c = escOpen then obr else if c = escClose then cbr else c)

/-- loc_str.rfind of the opening brace: splits l as bef ++ obr :: aft with
no opening brace in aft (none when l has no opening brace). -/
def splitAtLastOpen : List Char → Option (List Char × List Char)
  | [] => none
  | c :: rest =>
    match splitAtLastOpen rest with
    | some (a, b) => some (c :: a, b)
    | none => if c = obr then some ([], rest) else none

/-- loc_str.find of the closing brace after the opening one: splits l as
bef ++ cbr :: aft with no closing brace in bef. -/
def splitAtFirstClose : List Char → Option (List Char × List Char)
  | [] => none
  | c :: rest =>
    if c = cbr then some ([], rest)
    else
      match splitAtFirstClose rest with
      | some (a, b) => some (c :: a, b)
      | none => none

/-- The two index-shuffling while loops removing leading and trailing
spaces of the brace contents. -/
def trimSpaces (l : List Char) : List Char :=
  ((l.dropWhile (fun c => c = ' ')).reverse.dropWhile (fun c => c = ' ')).reverse

/-- Environment of the string parser: the my_constants table (queried by
ParmParse::contains / get) and the external numeric evaluation plus
stringstream formatting used for non-symbol expressions. -/
structure ParserEnv where
  consts : List (String × String)
  evalNum : String → String

/-- The two fatal assertion failures of the string overload, carrying the
data printed to amrex::ErrorStream() before AMREX_ALWAYS_ASSERT fires: the
current call's input string and, for a cycle, the recursive symbol. -/
inductive ParserFatal
  | unclosedBrace (input : List Char)
  | recursiveSymbol (input : List Char) (symbol : String)
deriving DecidableEq

/-- Number of opening braces, the loop variant of the substitution loop. -/
def bracesCount (l : List Char) : Nat := l.count obr

/-- The while loop over loc_str.rfind of the opening brace, including the
recursive expansion of my_constants symbols (the nested call inlines
fillWithParser with do_escape_backtransform = false, i.e. escape, loop, no
backtransform).  recSyms is the recursive_symbols set, orig the current
call's str argument used in error messages.  none means out of fuel. -/
def braceLoop (env : ParserEnv) :
    Nat → List String → List Char → List Char → Option (Except ParserFatal (List Char))
  | 0, _, _, _ => none
  | fuel + 1, recSyms, orig, loc =>
    match splitAtLastOpen loc with
    | none => some (Except.ok loc)
    | some (bef, aft) =>
      match splitAtFirstClose aft with
      | none => some (Except.error (ParserFatal.unclosedBrace orig))
      | some (expr, rest) =>
        let ps := String.mk (trimSpaces expr)
        if (trimSpaces expr).isEmpty then
          braceLoop env fuel recSyms orig (bef ++ rest)
        else
          match List.lookup ps env.consts with
          | some replacer =>
            if ps ∈ recSyms then
              some (Except.error (ParserFatal.recursiveSymbol orig ps))
            else
              match braceLoop env fuel (ps :: recSyms) replacer.toList
                  (escapeCloses (escapeOpens replacer.toList)) with
              | none => none
              | some (Except.error e) => some (Except.error e)
              | some (Except.ok parse_val) =>
                braceLoop env fuel recSyms orig (bef ++ parse_val ++ rest)
          | none =>
            braceLoop env fuel recSyms orig
              (bef ++ (env.evalNum ps).toList ++ rest)

/-- Parser::fillWithParser for std::string at the top level: escape the
doubled braces, run the substitution loop with an empty recursive_symbols
set, and (do_escape_backtransform = true) transform char(1) and char(2)
back into braces. -/
def fillWithParserString (env : ParserEnv) (fuel : Nat) (s : String) :
    Option (Except ParserFatal String) :=
  match braceLoop env fuel [] s.toList (escapeCloses (escapeOpens s.toList)) with
  | none => none
  | some (Except.error e) => some (Except.error e)
  | some (Except.ok r) => some (Except.ok (String.mk (unescape r)))

/-- A my_constants entry whose value is a single brace reference to the
named symbol itself: the canonical direct reference cycle. -/
def selfRef (sym : String) : String := String.mk (obr :: (sym.toList ++ [cbr]))

/-- Number of constants not currently on the in-progress stack: the
recursion variant of the symbol expansion. -/
def freeCount (env : ParserEnv) (recSyms : List String) : Nat :=
  ((env.consts.map Prod.fst).filter (fun k => decide (k ∉ recSyms))).length

theorem splitAtLastOpen_eq_none : ∀ {l : List Char},
    splitAtLastOpen l = none ↔ obr ∉ l := by
  intro l
  induction l with
  | nil => simp [splitAtLastOpen]
  | cons c rest ih =>
    cases hs : splitAtLastOpen rest with
    | some ab =>
      obtain ⟨a, b⟩ := ab
      simp only [splitAtLastOpen, hs]
      constructor
      · intro h; cases h
      · intro h
        exfalso
        have hmem : obr ∈ rest := by
          by_contra hno
          rw [ih.mpr hno] at hs
          cases hs
        exact h (List.mem_cons_of_mem _ hmem)
    | none =>
      simp only [splitAtLastOpen, hs]
      by_cases hc : c = obr
      · subst hc
        simp only [if_pos rfl]
        constructor
        · intro h; cases h
        · intro h; exact absurd (List.mem_cons_self _ _) h
      · rw [if_neg hc]
        constructor
        · intro _
          intro hmem
          rcases List.mem_cons.mp hmem with h | h
          · exact hc h.symm
          · exact (ih.mp hs) h
        · intro _; rfl

theorem splitAtLastOpen_decomp : ∀ {l a b : List Char},
    splitAtLastOpen l = some (a, b) → l = a ++ obr :: b ∧ obr ∉ b := by
  intro l
  induction l with
  | nil => intro a b h; cases h
  | cons c rest ih =>
    intro a b h
    simp only [splitAtLastOpen] at h
    cases hs : splitAtLastOpen rest with
    | some ab =>
      obtain ⟨a', b'⟩ := ab
      rw [hs] at h
      injection h with h2
      obtain ⟨rfl, rfl⟩ : c :: a' = a ∧ b' = b :=
        ⟨congrArg Prod.fst h2, congrArg Prod.snd h2⟩
      obtain ⟨h1, h2'⟩ := ih hs
      exact ⟨by rw [List.cons_append, ← h1], h2'⟩
    | none =>
      rw [hs] at h
      by_cases hc : c = obr
      · rw [if_pos hc] at h
        injection h with h2
        obtain ⟨rfl, rfl⟩ : ([] : List Char) = a ∧ rest = b :=
          ⟨congrArg Prod.fst h2, congrArg Prod.snd h2⟩
        exact ⟨by rw [hc]; rfl, splitAtLastOpen_eq_none.mp hs⟩
      · rw [if_neg hc] at h; cases h

theorem splitAtFirstClose_decomp : ∀ {l a b : List Char},
    splitAtFirstClose l = some (a, b) → l = a ++ cbr :: b ∧ cbr ∉ a := by
  intro l
  induction l with
  | nil => intro a b h; cases h
  | cons c rest ih =>
    intro a b h
    simp only [splitAtFirstClose] at h
    by_cases hc : c = cbr
    · rw [if_pos hc] at h
      injection h with h2
      obtain ⟨rfl, rfl⟩ : ([] : List Char) = a ∧ rest = b :=
        ⟨congrArg Prod.fst h2, congrArg Prod.snd h2⟩
      exact ⟨by rw [hc]; rfl, List.not_mem_nil _⟩
    · rw [if_neg hc] at h
      cases hs : splitAtFirstClose rest with
      | some ab =>
        obtain ⟨a', b'⟩ := ab
        rw [hs] at h
        injection h with h2
        obtain ⟨rfl, rfl⟩ : c :: a' = a ∧ b' = b :=
          ⟨congrArg Prod.fst h2, congrArg Prod.snd h2⟩
        obtain ⟨h1, h2'⟩ := ih hs
        refine ⟨by rw [List.cons_append, ← h1], ?_⟩
        intro hmem
        rcases List.mem_cons.mp hmem with hm | hm
        · exact hc hm.symm
        · exact h2' hm
      | none => rw [hs] at h; cases h

theorem splitAtFirstClose_eq_none : ∀ {l : List Char},
    cbr ∉ l → splitAtFirstClose l = none := by
  intro l
  induction l with
  | nil => intro _; rfl
  | cons c rest ih =>
    intro h
    have hc : c ≠ cbr := fun hEq => h (hEq ▸ List.mem_cons_self _ _)
    have ht : cbr ∉ rest := fun hm => h (List.mem_cons_of_mem _ hm)
    simp only [splitAtFirstClose, if_neg hc, ih ht]

theorem braceLoop_ok_no_obr (env : ParserEnv) :
    ∀ (fuel : Nat) (recSyms : List String) (orig loc r : List Char),
    braceLoop env fuel recSyms orig loc = some (Except.ok r) → obr ∉ r := by
  intro fuel
  induction fuel with
  | zero => intro recSyms orig loc r h; cases h
  | succ f ih =>
    intro recSyms orig loc r h
    simp only [braceLoop] at h
    split at h
    · rename_i heq
      have h2 := Option.some.inj h
      have h3 := Except.ok.inj h2
      subst h3
      exact splitAtLastOpen_eq_none.mp heq
    · rename_i bef aft heq
      split at h
      · exact Except.noConfusion (Option.some.inj h)
      · rename_i expr rest heq2
        split at h
        · exact ih _ _ _ _ h
        · split at h
          · rename_i replacer hlook
            split at h
            · exact Except.noConfusion (Option.some.inj h)
            · split at h
              · exact Option.noConfusion h
              · exact Except.noConfusion (Option.some.inj h)
              · exact ih _ _ _ _ h
          · exact ih _ _ _ _ h

theorem braceLoop_mono_succ (env : ParserEnv) :
    ∀ (fuel : Nat) (recSyms : List String) (orig loc : List Char)
      (r : Except ParserFatal (List Char)),
    braceLoop env fuel recSyms orig loc = some r →
    braceLoop env (fuel + 1) recSyms orig loc = some r := by
  intro fuel
  induction fuel with
  | zero => intro _ _ _ r h; cases h
  | succ f ih =>
    intro recSyms orig loc r h
    rw [braceLoop] at h ⊢
    dsimp only at h ⊢
    split at h
    · exact h
    · split at h
      · exact h
      · split at h
        · rename_i hemp
          rw [if_pos hemp]
          exact ih _ _ _ _ h
        · rename_i hemp
          rw [if_neg hemp]
          split at h
          · split at h
            · rename_i hrec
              rw [if_pos hrec]
              exact h
            · rename_i hrec
              rw [if_neg hrec]
              split at h
              · exact Option.noConfusion h
              · rename_i e heq3
                rw [ih _ _ _ _ heq3]
                exact h
              · rename_i pv heq3
                rw [ih _ _ _ _ heq3]
                exact ih _ _ _ _ h
          · exact ih _ _ _ _ h

theorem braceLoop_mono (env : ParserEnv) {fuel fuel' : Nat}
    {recSyms : List String} {orig loc : List Char}
    {r : Except ParserFatal (List Char)}
    (h : braceLoop env fuel recSyms orig loc = some r) (hle : fuel ≤ fuel') :
    braceLoop env fuel' recSyms orig loc = some r := by
  induction fuel' , hle using Nat.le_induction with
  | base => exact h
  | succ n _ ih => exact braceLoop_mono_succ env n _ _ _ _ ih

theorem bracesCount_append (a b : List Char) :
    bracesCount (a ++ b) = bracesCount a + bracesCount b :=
  List.count_append _ _ _

theorem bracesCount_eq_zero {l : List Char} (h : obr ∉ l) : bracesCount l = 0 :=
  List.count_eq_zero.mpr h

theorem bracesCount_cons_self (l : List Char) :
    bracesCount (obr :: l) = bracesCount l + 1 :=
  List.count_cons_self _ _

theorem length_filter_le_of_imp {α : Type} (l : List α) (p q : α → Bool)
    (h : ∀ a, p a = true → q a = true) :
    (l.filter p).length ≤ (l.filter q).length := by
  induction l with
  | nil => simp
  | cons a t ih =>
    by_cases hp : p a = true
    · rw [List.filter_cons_of_pos hp, List.filter_cons_of_pos (h a hp)]
      simpa using ih
    · rw [List.filter_cons_of_neg (by simpa using hp)]
      by_cases hq : q a = true
      · rw [List.filter_cons_of_pos hq]
        exact le_trans ih (by simp)
      · rw [List.filter_cons_of_neg (by simpa using hq)]
        exact ih

theorem length_filter_lt_of_mem {α : Type} (l : List α) (p q : α → Bool)
    (h : ∀ a, p a = true → q a = true) (a0 : α) (hmem : a0 ∈ l)
    (hq0 : q a0 = true) (hp0 : p a0 = false) :
    (l.filter p).length < (l.filter q).length := by
  induction l with
  | nil => cases hmem
  | cons a t ih =>
    rcases List.mem_cons.mp hmem with rfl | hmem'
    · rw [List.filter_cons_of_pos hq0, List.filter_cons_of_neg (by simp [hp0])]
      exact Nat.lt_succ_of_le (length_filter_le_of_imp t p q h)
    · by_cases hp : p a = true
      · rw [List.filter_cons_of_pos hp, List.filter_cons_of_pos (h a hp)]
        exact Nat.succ_lt_succ (ih hmem')
      · rw [List.filter_cons_of_neg (by simpa using hp)]
        by_cases hq : q a = true
        · rw [List.filter_cons_of_pos hq]
          exact Nat.lt_succ_of_lt (ih hmem')
        · rw [List.filter_cons_of_neg (by simpa using hq)]
          exact ih hmem'

theorem freeCount_cons_lt (env : ParserEnv) (recSyms : List String) (sym : String)
    (hkey : sym ∈ env.consts.map Prod.fst) (hnot : sym ∉ recSyms) :
    freeCount env (sym :: recSyms) < freeCount env recSyms := by
  refine length_filter_lt_of_mem _ _ _ ?_ sym hkey ?_ ?_
  · intro a ha
    simp only [decide_eq_true_eq] at ha ⊢
    exact fun hmem => ha (List.mem_cons_of_mem _ hmem)
  · simpa using hnot
  · simp

theorem lookup_some_mem_keys {l : List (String × String)} {k : String} {v : String}
    (h : List.lookup k l = some v) : k ∈ l.map Prod.fst := by
  induction l with
  | nil => cases h
  | cons p t ih =>
    obtain ⟨k', v'⟩ := p
    by_cases hk : (k == k') = true
    · have : k = k' := by simpa using hk
      subst this
      exact List.mem_cons_self _ _
    · have hk2 : (k == k') = false := by simpa using hk
      rw [List.lookup, hk2] at h
      exact List.mem_cons_of_mem _ (ih h)

theorem braceLoop_total (env : ParserEnv)
    (hnum : ∀ e : String, obr ∉ (env.evalNum e).toList) :
    ∀ (N : Nat) (recSyms : List String), freeCount env recSyms ≤ N →
    ∀ (M : Nat) (loc : List Char), bracesCount loc ≤ M →
    ∀ (orig : List Char), ∃ fuel : Nat, (braceLoop env fuel recSyms orig loc).isSome := by
  intro N
  induction N using Nat.strong_induction_on with
  | _ N ihN =>
    intro recSyms hrec M
    induction M using Nat.strong_induction_on with
    | _ M ihM =>
      intro loc hloc orig
      cases hsplit : splitAtLastOpen loc with
      | none =>
        refine ⟨0 + 1, ?_⟩
        rw [braceLoop]
        simp only [hsplit]
        rfl
      | some ba =>
        obtain ⟨bef, aft⟩ := ba
        obtain ⟨hloc_eq, hnoaft⟩ := splitAtLastOpen_decomp hsplit
        subst hloc_eq
        cases hsplit2 : splitAtFirstClose aft with
        | none =>
          refine ⟨0 + 1, ?_⟩
          rw [braceLoop]
          simp only [hsplit, hsplit2]
          rfl
        | some er =>
          obtain ⟨expr, rest⟩ := er
          obtain ⟨haft_eq, hnobef⟩ := splitAtFirstClose_decomp hsplit2
          subst haft_eq
          have hobr_rest : obr ∉ rest := fun hm =>
            hnoaft (List.mem_append.mpr (Or.inr (List.mem_cons_of_mem _ hm)))
          have hcount : bracesCount (bef ++ obr :: (expr ++ cbr :: rest))
              = bracesCount bef + 1 := by
            rw [bracesCount_append, bracesCount_cons_self, bracesCount_eq_zero hnoaft]
          have hbef_lt : bracesCount bef < M := by
            rw [hcount] at hloc
            omega
          by_cases hemp : (trimSpaces expr).isEmpty = true
          · have hcnt2 : bracesCount (bef ++ rest) ≤ bracesCount bef := by
              rw [bracesCount_append, bracesCount_eq_zero hobr_rest]
              omega
            obtain ⟨f, hf⟩ := ihM (bracesCount bef) hbef_lt (bef ++ rest) hcnt2 orig
            refine ⟨f + 1, ?_⟩
            rw [braceLoop]
            simp only [hsplit, hsplit2]
            rw [if_pos hemp]
            exact hf
          · cases hlook : List.lookup (String.mk (trimSpaces expr)) env.consts with
            | some replacer =>
              by_cases hrecmem : String.mk (trimSpaces expr) ∈ recSyms
              · refine ⟨0 + 1, ?_⟩
                rw [braceLoop]
                simp only [hsplit, hsplit2]
                rw [if_neg hemp]
                simp only [hlook]
                rw [if_pos hrecmem]
                rfl
              · have hkey : String.mk (trimSpaces expr) ∈ env.consts.map Prod.fst :=
                  lookup_some_mem_keys hlook
                have hltN : freeCount env (String.mk (trimSpaces expr) :: recSyms) < N :=
                  lt_of_lt_of_le (freeCount_cons_lt env recSyms _ hkey hrecmem) hrec
                obtain ⟨g, hg⟩ := ihN (freeCount env (String.mk (trimSpaces expr) :: recSyms))
                  hltN (String.mk (trimSpaces expr) :: recSyms) (le_refl _)
                  (bracesCount (escapeCloses (escapeOpens replacer.toList)))
                  (escapeCloses (escapeOpens replacer.toList)) (le_refl _) replacer.toList
                obtain ⟨res, hres⟩ := Option.isSome_iff_exists.mp hg
                cases res with
                | error e =>
                  refine ⟨g + 1, ?_⟩
                  rw [braceLoop]
                  simp only [hsplit, hsplit2]
                  rw [if_neg hemp]
                  simp only [hlook]
                  rw [if_neg hrecmem]
                  simp only [hres]
                  rfl
                | ok pv =>
                  have hpv : obr ∉ pv := braceLoop_ok_no_obr env g _ _ _ _ hres
                  have hcnt2 : bracesCount (bef ++ pv ++ rest) ≤ bracesCount bef := by
                    rw [bracesCount_append, bracesCount_append,
                        bracesCount_eq_zero hpv, bracesCount_eq_zero hobr_rest]
                    omega
                  obtain ⟨f, hf⟩ := ihM (bracesCount bef) hbef_lt (bef ++ pv ++ rest) hcnt2 orig
                  obtain ⟨resf, hresf⟩ := Option.isSome_iff_exists.mp hf
                  refine ⟨max g f + 1, ?_⟩
                  have hg2 : braceLoop env (max g f)
                      (String.mk (trimSpaces expr) :: recSyms) replacer.toList
                      (escapeCloses (escapeOpens replacer.toList)) = some (Except.ok pv) :=
                    braceLoop_mono env hres (le_max_left _ _)
                  have hf2 : braceLoop env (max g f) recSyms orig (bef ++ pv ++ rest)
                      = some resf :=
                    braceLoop_mono env hresf (le_max_right _ _)
                  rw [braceLoop]
                  simp only [hsplit, hsplit2]
                  rw [if_neg hemp]
                  simp only [hlook]
                  rw [if_neg hrecmem]
                  simp only [hg2]
                  rw [hf2]
                  rfl
            | none =>
              have hcnt2 : bracesCount
                  (bef ++ (env.evalNum (String.mk (trimSpaces expr))).toList ++ rest)
                  ≤ bracesCount bef := by
                rw [bracesCount_append, bracesCount_append,
                    bracesCount_eq_zero (hnum (String.mk (trimSpaces expr))),
                    bracesCount_eq_zero hobr_rest]
                omega
              obtain ⟨f, hf⟩ := ihM (bracesCount bef) hbef_lt _ hcnt2 orig
              refine ⟨f + 1, ?_⟩
              rw [braceLoop]
              simp only [hsplit, hsplit2]
              rw [if_neg hemp]
              simp only [hlook]
              exact hf

theorem escapeOpens_no_obr_aux : ∀ (n : Nat) (l : List Char), l.length ≤ n →
    obr ∉ l → escapeOpens l = l := by
  intro n
  induction n with
  | zero =>
    intro l hl _
    rw [List.length_eq_zero.mp (Nat.le_zero.mp hl)]
    rfl
  | succ n ih =>
    intro l hl hno
    cases l with
    | nil => rfl
    | cons c1 t =>
      cases t with
      | nil => rfl
      | cons c2 rest =>
        have hc1 : c1 ≠ obr := fun h => hno (h ▸ List.mem_cons_self _ _)
        rw [escapeOpens, if_neg (fun hand => hc1 hand.1)]
        have hlen : (c2 :: rest).length ≤ n := by
          simp only [List.length_cons] at hl ⊢
          omega
        rw [ih (c2 :: rest) hlen (fun hm => hno (List.mem_cons_of_mem _ hm))]

theorem escapeOpens_no_obr {l : List Char} (h : obr ∉ l) : escapeOpens l = l :=
  escapeOpens_no_obr_aux l.length l (le_refl _) h

theorem escapeOpens_cons_obr {t : List Char} (h : obr ∉ t) :
    escapeOpens (obr :: t) = obr :: t := by
  cases t with
  | nil => rfl
  | cons c2 rest =>
    have hc2 : c2 ≠ obr := fun hEq => h (hEq ▸ List.mem_cons_self _ _)
    rw [escapeOpens, if_neg (fun hand => hc2 hand.2)]
    rw [escapeOpens_no_obr h]

theorem escapeClosesRev_count_aux : ∀ (n : Nat) (l : List Char), l.length ≤ n →
    List.count cbr l ≤ 1 → escapeClosesRev l = l := by
  intro n
  induction n with
  | zero =>
    intro l hl _
    rw [List.length_eq_zero.mp (Nat.le_zero.mp hl)]
    rfl
  | succ n ih =>
    intro l hl hcnt
    cases l with
    | nil => rfl
    | cons c1 t =>
      cases t with
      | nil => rfl
      | cons c2 rest =>
        have hcond : ¬(c1 = cbr ∧ c2 = cbr) := by
          rintro ⟨rfl, rfl⟩
          rw [List.count_cons, List.count_cons] at hcnt
          simp at hcnt
        rw [escapeClosesRev, if_neg hcond]
        have hlen : (c2 :: rest).length ≤ n := by
          simp only [List.length_cons] at hl ⊢
          omega
        have hcnt2 : List.count cbr (c2 :: rest) ≤ 1 := by
          rw [List.count_cons] at hcnt
          omega
        rw [ih (c2 :: rest) hlen hcnt2]

theorem escapeCloses_id {l : List Char} (h : List.count cbr l ≤ 1) :
    escapeCloses l = l := by
  rw [escapeCloses,
      escapeClosesRev_count_aux l.reverse.length l.reverse (le_refl _)
        (by rwa [List.count_reverse]),
      List.reverse_reverse]

theorem dropWhile_spaces_eq_self {l : List Char} (h : ∀ c ∈ l, c ≠ ' ') :
    l.dropWhile (fun c => c = ' ') = l := by
  cases l with
  | nil => rfl
  | cons a t =>
    rw [List.dropWhile_cons, if_neg (by simpa using h a (List.mem_cons_self _ _))]

theorem trimSpaces_eq_self {l : List Char} (h : ∀ c ∈ l, c ≠ ' ') :
    trimSpaces l = l := by
  rw [trimSpaces, dropWhile_spaces_eq_self h,
      dropWhile_spaces_eq_self (fun c hc => h c (List.mem_reverse.mp hc)),
      List.reverse_reverse]

theorem splitAtLastOpen_cons_obr {b : List Char} (h : obr ∉ b) :
    splitAtLastOpen (obr :: b) = some ([], b) := by
  rw [splitAtLastOpen, splitAtLastOpen_eq_none.mpr h]
  rw [if_pos rfl]

theorem splitAtFirstClose_prefix : ∀ {a : List Char} (b : List Char), cbr ∉ a →
    splitAtFirstClose (a ++ cbr :: b) = some (a, b) := by
  intro a
  induction a with
  | nil =>
    intro b _
    rw [List.nil_append, splitAtFirstClose, if_pos rfl]
  | cons c t ih =>
    intro b h
    have hc : c ≠ cbr := fun hEq => h (hEq ▸ List.mem_cons_self _ _)
    rw [List.cons_append, splitAtFirstClose, if_neg hc,
        ih b (fun hm => h (List.mem_cons_of_mem _ hm))]

theorem braceLoop_unclosed (env : ParserEnv) (k : Nat) (recS : List String)
    (orig loc : List Char) (hobr : obr ∈ loc) (hcbr : cbr ∉ loc) :
    braceLoop env (k + 1) recS orig loc
      = some (Except.error (ParserFatal.unclosedBrace orig)) := by
  cases hsplit : splitAtLastOpen loc with
  | none => exact absurd hobr (splitAtLastOpen_eq_none.mp hsplit)
  | some ba =>
    obtain ⟨bef, aft⟩ := ba
    obtain ⟨heq, _⟩ := splitAtLastOpen_decomp hsplit
    have hcbr_aft : cbr ∉ aft := fun hm =>
      hcbr (heq ▸ List.mem_append.mpr (Or.inr (List.mem_cons_of_mem _ hm)))
    rw [braceLoop]
    simp only [hsplit, splitAtFirstClose_eq_none hcbr_aft]

theorem fillWithParserString_unclosed (env : ParserEnv) (s : String)
    (hobr : obr ∈ s.toList) (hcbr : cbr ∉ s.toList)
    (hesc : escapeOpens s.toList = s.toList) :
    ∀ k : Nat, fillWithParserString env (k + 1) s
      = some (Except.error (ParserFatal.unclosedBrace s.toList)) := by
  intro k
  have hescC : escapeCloses s.toList = s.toList :=
    escapeCloses_id (le_trans (le_of_eq (List.count_eq_zero.mpr hcbr)) (by omega))
  rw [fillWithParserString, hesc, hescC, braceLoop_unclosed env k [] _ _ hobr hcbr]

theorem fillWithParserString_total (env : ParserEnv)
    (hnum : ∀ e : String, obr ∉ (env.evalNum e).toList) (s : String) :
    ∃ fuel : Nat, (fillWithParserString env fuel s).isSome := by
  obtain ⟨fuel, hf⟩ := braceLoop_total env hnum (freeCount env []) [] (le_refl _)
    (bracesCount (escapeCloses (escapeOpens s.toList)))
    (escapeCloses (escapeOpens s.toList)) (le_refl _) s.toList
  refine ⟨fuel, ?_⟩
  rw [fillWithParserString]
  obtain ⟨r, hr⟩ := Option.isSome_iff_exists.mp hf
  rw [hr]
  cases r with
  | error e => rfl
  | ok v => rfl

theorem fillWithParserString_selfRef (env : ParserEnv) (sym : String)
    (hne : sym.toList ≠ []) (hobr : obr ∉ sym.toList) (hcbr : cbr ∉ sym.toList)
    (hsp : (' ' : Char) ∉ sym.toList)
    (hlook : List.lookup sym env.consts = some (selfRef sym)) :
    ∀ k : Nat, fillWithParserString env (k + 2) (selfRef sym)
      = some (Except.error (ParserFatal.recursiveSymbol (selfRef sym).toList sym)) := by
  have hlist : (selfRef sym).toList = obr :: (sym.toList ++ [cbr]) := rfl
  have hnoaft : obr ∉ sym.toList ++ [cbr] := by
    intro hm
    rcases List.mem_append.mp hm with hm | hm
    · exact hobr hm
    · rw [List.mem_singleton] at hm
      exact absurd hm (by decide)
  have htrim : trimSpaces sym.toList = sym.toList :=
    trimSpaces_eq_self (fun c hc hEq => hsp (hEq ▸ hc))
  have hnotemp : ¬((sym.toList).isEmpty = true) := by
    simpa [List.isEmpty_iff] using hne
  have hmkeq : String.mk sym.toList = sym := rfl
  have hcnt1 : List.count cbr (sym.toList ++ [cbr]) = 1 := by
    rw [List.count_append, List.count_eq_zero.mpr hcbr]
    decide
  have hescid : escapeCloses (escapeOpens (obr :: (sym.toList ++ [cbr])))
      = obr :: (sym.toList ++ [cbr]) := by
    rw [escapeOpens_cons_obr hnoaft]
    apply escapeCloses_id
    rw [List.count_cons, hcnt1]
    decide
  have hinner : ∀ (kk : Nat) (recS : List String) (origin : List Char), sym ∈ recS →
      braceLoop env (kk + 1) recS origin (obr :: (sym.toList ++ [cbr]))
        = some (Except.error (ParserFatal.recursiveSymbol origin sym)) := by
    intro kk recS origin hmem
    rw [braceLoop]
    simp only [splitAtLastOpen_cons_obr hnoaft,
               splitAtFirstClose_prefix [] hcbr, htrim, hmkeq, hlook]
    rw [if_neg hnotemp, if_pos hmem]
  intro k
  rw [fillWithParserString, hlist, hescid]
  show (match braceLoop env (k + 1 + 1) [] (obr :: (sym.toList ++ [cbr]))
          (obr :: (sym.toList ++ [cbr])) with
        | none => none
        | some (Except.error e) => some (Except.error e)
        | some (Except.ok r) => some (Except.ok (String.mk (unescape r))))
      = some (Except.error
          (ParserFatal.recursiveSymbol (selfRef sym).toList sym))
  rw [braceLoop]
  simp only [splitAtLastOpen_cons_obr hnoaft,
             splitAtFirstClose_prefix [] hcbr, htrim, hmkeq, hlook]
  rw [if_neg hnotemp, if_neg (List.not_mem_nil sym)]
  have hrepl : (selfRef sym).toList = obr :: (sym.toList ++ [cbr]) := rfl
  rw [hrepl, hescid, hinner k [sym] (obr :: (sym.toList ++ [cbr])) (List.mem_cons_self _ _)]

/-- C10: The string-valued expression parser's brace substitution terminates
on every input (for every input string there is enough fuel for the fuelled
embedding to finish, given that the external numeric formatter never emits
an opening brace); a my_constants symbol whose definition refers back to
itself is detected via the in-progress symbol set and reported as a fatal
error naming the recursive symbol instead of recursing forever; and an
opening brace with no closing brace after it is a fatal unclosed-brace
error. -/
theorem parser_brace_substitution (env : ParserEnv)
    (hnum : ∀ e : String, obr ∉ (env.evalNum e).toList) :
    (∀ s : String, ∃ fuel : Nat, (fillWithParserString env fuel s).isSome)
  ∧ (∀ sym : String, sym.toList ≠ [] → obr ∉ sym.toList → cbr ∉ sym.toList →
      (' ' : Char) ∉ sym.toList →
      List.lookup sym env.consts = some (selfRef sym) →
      ∀ fuel : Nat, 2 ≤ fuel →
        fillWithParserString env fuel (selfRef sym)
          = some (Except.error (ParserFatal.recursiveSymbol (selfRef sym).toList sym)))
  ∧ (∀ s : String, obr ∈ s.toList → cbr ∉ s.toList →
      escapeOpens s.toList = s.toList →
      ∀ fuel : Nat, 1 ≤ fuel →
        fillWithParserString env fuel s
          = some (Except.error (ParserFatal.unclosedBrace s.toList))) := by
  refine ⟨fun s => fillWithParserString_total env hnum s, ?_, ?_⟩
  · intro sym hne hobr hcbr hsp hlook fuel hfuel
    obtain ⟨k, rfl⟩ := Nat.exists_eq_add_of_le hfuel
    rw [show 2 + k = k + 2 from Nat.add_comm 2 k]
    exact fillWithParserString_selfRef env sym hne hobr hcbr hsp hlook k
  · intro s hobr hcbr hesc fuel hfuel
    obtain ⟨k, rfl⟩ := Nat.exists_eq_add_of_le hfuel
    rw [show 1 + k = k + 1 from Nat.add_comm 1 k]
    exact fillWithParserString_unclosed env s hobr hcbr hesc k

/-- Witness for C10: in an environment where constant a is defined as a
brace reference to itself and numbers render as the digit 0, parsing any
string terminates with some fuel, parsing the self-reference reports the
recursive symbol a, and parsing a string with an unmatched opening brace
reports the unclosed brace. -/
theorem parser_brace_substitution_witness :
    (∃ fuel : Nat,
      (fillWithParserString ⟨[("a", selfRef "a")], fun _ => "0"⟩ fuel "x").isSome)
  ∧ fillWithParserString ⟨[("a", selfRef "a")], fun _ => "0"⟩ 2 (selfRef "a")
      = some (Except.error (ParserFatal.recursiveSymbol (selfRef "a").toList "a"))
  ∧ fillWithParserString ⟨[("a", selfRef "a")], fun _ => "0"⟩ 1 "x\x7by"
      = some (Except.error (ParserFatal.unclosedBrace ("x\x7by" : String).toList)) :=
  ⟨(parser_brace_substitution ⟨[("a", selfRef "a")], fun _ => "0"⟩
      (fun e => by simp; decide)).1 "x",
   (parser_brace_substitution ⟨[("a", selfRef "a")], fun _ => "0"⟩
      (fun e => by simp; decide)).2.1 "a" (by decide) (by decide) (by decide) (by decide)
      (by decide) 2 (by decide),
   (parser_brace_substitution ⟨[("a", selfRef "a")], fun _ => "0"⟩
      (fun e => by simp; decide)).2.2 "x\x7by" (by decide) (by decide) (by decide) 1 (by decide)⟩
